import Mathlib

/-!
Shallow embedding of the p5-fourier sketch (src/src/sketch.ts, the full
selectable-waveform variant) and proofs about it.

The sketch draws a Fourier-series approximation of a waveform as a chain
of epicycles.  The embedding translates the math/animation core:
the wave-coefficient generators (squareWave, sawWave, lolWave), the
name-to-generator resolution (waveForm), the epicycle-chain builder
(epicycles / epicyclesRecurse), the radial-segment deriver (radialLines),
the time stepper (incrementTime), and the trajectory buffer and
per-frame state update performed by the draw callback.

JavaScript numbers are modelled as real numbers; the bitwise operator
on numbers (ToInt32 truncation, 32-bit two's-complement xor) is modelled
explicitly by jsXor.  The recursive chain builder does not terminate when
the requested count can never equal the list length (a stack overflow at
run time); the embedding returns an Option and yields none exactly in
that case.
-/

namespace P5Fourier

/-- The shared scale constant A of the sketch. -/
def SCALE : ℝ := 69

/-- The fixed per-frame time increment. -/
noncomputable def DT : ℝ := 0.0125

/-- A 2D vector, standing in for p5.Vector. -/
structure Vec2 where
  x : ℝ
  y : ℝ

instance : Inhabited Vec2 := ⟨⟨0, 0⟩⟩

/-- p5's createVector. -/
def createVector (x y : ℝ) : Vec2 := ⟨x, y⟩

/-- One harmonic of the series. -/
structure Wave where
  amplitude : ℝ
  angularVelocity : ℝ
  initialOffset : ℝ

instance : Inhabited Wave := ⟨⟨0, 0, 0⟩⟩

/-- 0-based index of a harmonic. -/
abbrev Octave := ℕ

/-- Animation time, a real held in [0, 2π). -/
abbrev Time := ℝ

/-- A waveform is a function from octave to wave. -/
abbrev WaveForm := Octave → Wave

/-- JavaScript truncation toward zero of a real number. -/
noncomputable def jsTrunc (x : ℝ) : ℤ :=
  if 0 ≤ x then ⌊x⌋ else ⌈x⌉

/-- JavaScript ToInt32 followed by two's-complement xor, as performed by
the numeric bitwise-xor operator: both operands are truncated toward
zero, reduced mod 2^32, xored, and the result is re-signed. -/
noncomputable def jsXor (a b : ℝ) : ℝ :=
  let ua : ℕ := (jsTrunc a % 2 ^ 32).toNat
  let ub : ℕ := (jsTrunc b % 2 ^ 32).toNat
  let r : ℕ := ua ^^^ ub
  if r < 2 ^ 31 then (r : ℝ) else (r : ℝ) - 2 ^ 32

/-- JavaScript remainder: sign follows the dividend. -/
noncomputable def jsMod (x y : ℝ) : ℝ :=
  x - y * (jsTrunc (x / y) : ℝ)

/-- The square-wave generator: odd harmonics k = 2o+1. -/
noncomputable def squareWave (o : Octave) : Wave :=
  let k : ℝ := 2 * (o : ℝ) + 1
  { amplitude := SCALE * 4 / (k * Real.pi)
    angularVelocity := k
    initialOffset := 0 }

/-- The sawtooth generator: k = o+1 with alternating sign. -/
noncomputable def sawWave (o : Octave) : Wave :=
  let k : ℕ := o + 1
  let sign : ℝ := if k % 2 = 0 then 1 else -1
  { amplitude := SCALE * 2 / (sign * (k : ℝ) * Real.pi)
    angularVelocity := 2 * (k : ℝ)
    initialOffset := 0 }

/-- The harmonic-overtone generator of the source: k = 2(o+1) and an
angular velocity written k ^ (2.71 ^ k), where ^ is the JavaScript
bitwise-xor operator on numbers. -/
noncomputable def lolWave (o : Octave) : Wave :=
  let k : ℝ := 2 * ((o : ℝ) + 1)
  { amplitude := SCALE * 4 / (k * Real.pi)
    angularVelocity := jsXor k (jsXor 2.71 k)
    initialOffset := 0 }

/-- Name resolution over the generator catalog; unknown names fall back
to the square wave. -/
noncomputable def waveForm (name : String) : WaveForm :=
  if name = "square" then squareWave
  else if name = "sawtooth" then sawWave
  else if name = "sin" then lolWave
  else squareWave

/-- The time stepper: (t + dt) % TWO_PI with the JavaScript remainder. -/
noncomputable def incrementTime (t : Time) (dt : ℝ) : Time :=
  jsMod (t + dt) (2 * Real.pi)

/-- An epicycle: a center point and the wave it carries. -/
structure Epicycle where
  pos : Vec2
  wave : Wave

instance : Inhabited Epicycle := ⟨⟨default, default⟩⟩

/-- The position of the next epicycle of the chain at time t. -/
noncomputable def nextEpicylePos (t : Time) (e : Epicycle) : Vec2 :=
  let theta := t * e.wave.angularVelocity + e.wave.initialOffset
  createVector
    (e.wave.amplitude * Real.cos (-theta) + e.pos.x)
    (e.wave.amplitude * Real.sin (-theta) + e.pos.y)

/-- The recursive chain builder.  The source recurses until the
accumulated length strictly equals n; when n is below the current
length that equality is unreachable and the run-time recursion never
returns (stack overflow), modelled here as none. -/
noncomputable def epicyclesRecurse (t : Time) (n : ℤ) (wf : WaveForm)
    (pos : Vec2) (epis : List Epicycle) : Option (List Epicycle) :=
  if h1 : (epis.length : ℤ) = n then some epis
  else if h2 : n < (epis.length : ℤ) then none
  else
    let o : Octave := epis.length
    let epi : Epicycle := { pos := pos, wave := wf o }
    epicyclesRecurse t n wf (nextEpicylePos t epi) (epis ++ [epi])
termination_by (n - epis.length).toNat
decreasing_by
  simp only [List.length_append, List.length_cons, List.length_nil]
  omega

/-- The chain builder: inject the origin into the recursion. -/
noncomputable def epicycles (t : Time) (n : ℤ) (wf : WaveForm) :
    Option (List Epicycle) :=
  epicyclesRecurse t n wf (createVector 0 0) []

/-- A radial segment between consecutive epicycle centers. -/
structure RadialLine where
  p1 : Vec2
  p2 : Vec2

instance : Inhabited RadialLine := ⟨⟨default, default⟩⟩

/-- The radial-segment deriver: one segment per epicycle, p1 the center,
p2 the next center, and for the last epicycle the freshly computed next
position (the pencil tip). -/
noncomputable def radialLines (t : Time) (epis : List Epicycle) :
    List RadialLine :=
  (List.range epis.length).map fun i =>
    { p1 := (epis.getD i default).pos
      p2 := if i = epis.length - 1 then nextEpicylePos t (epis.getD i default)
            else (epis.getD (i + 1) default).pos }

/-- The trajectory-buffer push performed each frame by draw:
unshift at the front, then pop from the back once the length
exceeds 512. -/
def trajectoryPush {α : Type} (p : α) (buf : List α) : List α :=
  let b := p :: buf
  if b.length > 512 then b.dropLast else b

/-- The cross-frame state owned by the sketch, generic in the type
recorded per trajectory point. -/
structure SketchStateG (α : Type) where
  time : Time
  trajectory : List α
  wfPrevious : String

/-- One pass of the draw callback, generic in how a pushed trajectory
point records the active waveform name: clear the trajectory on
waveform change, rebuild the chain and the radials, push the last
radial's p2 (the pencil tip), and advance time. -/
noncomputable def drawStepG {α : Type} (record : Vec2 → String → α)
    (s : SketchStateG α) (octaves : ℕ) (wf : String) : SketchStateG α :=
  let traj1 := if wf = s.wfPrevious then s.trajectory else []
  let epis := (epicycles s.time (octaves : ℤ) (waveForm wf)).getD []
  let radials := radialLines s.time epis
  let lastPos := (radials.getD (radials.length - 1) default).p2
  { time := incrementTime s.time DT
    trajectory := trajectoryPush (record lastPos wf) traj1
    wfPrevious := wf }

/-- The draw callback as the program runs it: points are bare vectors. -/
noncomputable def drawStep (s : SketchStateG Vec2) (octaves : ℕ)
    (wf : String) : SketchStateG Vec2 :=
  drawStepG (fun v _ => v) s octaves wf

/-- The draw callback with each point tagged by the waveform name under
which it was pushed (provenance ghost state; the point data is
unchanged). -/
noncomputable def drawStepTagged (s : SketchStateG (Vec2 × String))
    (octaves : ℕ) (wf : String) : SketchStateG (Vec2 × String) :=
  drawStepG (fun v w => (v, w)) s octaves wf

/-- A run of tagged draw steps over a list of per-frame inputs
(octave count and selected waveform name). -/
noncomputable def runTagged (s : SketchStateG (Vec2 × String))
    (inputs : List (ℕ × String)) : SketchStateG (Vec2 × String) :=
  inputs.foldl (fun s i => drawStepTagged s i.1 i.2) s

/-- The angular velocity the spec sentence describes for the
harmonic-overtone generator when its inner ^ is read as real
exponentiation: the bitwise xor of k with the real power 2.71^k.
Stated from the spec's words, for comparison with lolWave. -/
noncomputable def lolAngularVelocityPow (o : Octave) : ℝ :=
  let k : ℕ := 2 * (o + 1)
  jsXor (k : ℝ) ((2.71 : ℝ) ^ k)

/-! ### Helper descriptions of the chain the builder produces -/

/-- The chain of m epicycles the recursion appends when it starts at
center pos with octave index o. -/
noncomputable def chainFrom (t : Time) (wf : WaveForm) :
    Vec2 → ℕ → ℕ → List Epicycle
  | _, _, 0 => []
  | pos, o, m + 1 =>
      let epi : Epicycle := { pos := pos, wave := wf o }
      epi :: chainFrom t wf (nextEpicylePos t epi) (o + 1) m

/-- The center of the epicycle i steps after one centered at pos with
octave index o. -/
noncomputable def centerFrom (t : Time) (wf : WaveForm) (pos : Vec2)
    (o : ℕ) : ℕ → Vec2
  | 0 => pos
  | i + 1 => nextEpicylePos t { pos := centerFrom t wf pos o i, wave := wf (o + i) }

lemma chainFrom_length (t : Time) (wf : WaveForm) :
    ∀ (m : ℕ) (pos : Vec2) (o : ℕ), (chainFrom t wf pos o m).length = m := by
  intro m
  induction m with
  | zero => intro pos o; simp [chainFrom]
  | succ m ih => intro pos o; simp [chainFrom, ih]

lemma centerFrom_shift (t : Time) (wf : WaveForm) :
    ∀ (i : ℕ) (pos : Vec2) (o : ℕ),
      centerFrom t wf pos o (i + 1) =
        centerFrom t wf (nextEpicylePos t { pos := pos, wave := wf o }) (o + 1) i := by
  intro i
  induction i with
  | zero => intro pos o; simp [centerFrom]
  | succ i ih =>
      intro pos o
      rw [show i + 1 + 1 = (i + 1) + 1 from rfl, centerFrom, ih pos o, centerFrom]
      simp [Nat.add_comm, Nat.add_assoc, Nat.add_left_comm]

lemma chainFrom_getElem? (t : Time) (wf : WaveForm) :
    ∀ (m i : ℕ) (pos : Vec2) (o : ℕ), i < m →
      (chainFrom t wf pos o m)[i]? =
        some { pos := centerFrom t wf pos o i, wave := wf (o + i) } := by
  intro m
  induction m with
  | zero => intro i pos o hi; omega
  | succ m ih =>
      intro i pos o hi
      match i with
      | 0 => simp [chainFrom, centerFrom]
      | i + 1 =>
          rw [chainFrom]
          simp only [List.getElem?_cons_succ]
          rw [ih i _ (o + 1) (by omega), centerFrom_shift]
          simp [Nat.add_comm, Nat.add_assoc, Nat.add_left_comm]

/-- The recursion extends the accumulator by exactly the chain described
by chainFrom. -/
lemma epicyclesRecurse_eq (t : Time) (wf : WaveForm) :
    ∀ (m : ℕ) (pos : Vec2) (epis : List Epicycle),
      epicyclesRecurse t ((epis.length + m : ℕ) : ℤ) wf pos epis =
        some (epis ++ chainFrom t wf pos epis.length m) := by
  intro m
  induction m with
  | zero =>
      intro pos epis
      rw [epicyclesRecurse]
      simp [chainFrom]
  | succ m ih =>
      intro pos epis
      rw [epicyclesRecurse]
      have hne : ¬((epis.length : ℤ) = ((epis.length + (m + 1) : ℕ) : ℤ)) := by
        push_cast; omega
      have hnlt : ¬(((epis.length + (m + 1) : ℕ) : ℤ) < (epis.length : ℤ)) := by
        push_cast; omega
      rw [dif_neg hne, dif_neg hnlt]
      show epicyclesRecurse t ((epis.length + (m + 1) : ℕ) : ℤ) wf
          (nextEpicylePos t { pos := pos, wave := wf epis.length })
          (epis ++ [{ pos := pos, wave := wf epis.length }]) =
        some (epis ++ chainFrom t wf pos epis.length (m + 1))
      rw [show (epis.length + (m + 1) : ℕ) =
            ((epis ++ [({ pos := pos, wave := wf epis.length } : Epicycle)]).length + m : ℕ) by
          simp; omega]
      rw [ih]
      simp [chainFrom]

/-- The chain builder on a natural count always returns the chain from
the origin. -/
lemma epicycles_natCast (t : Time) (wf : WaveForm) (n : ℕ) :
    epicycles t (n : ℤ) wf =
      some (chainFrom t wf (createVector 0 0) 0 n) := by
  have h := epicyclesRecurse_eq t wf n (createVector 0 0) []
  simpa [epicycles] using h

lemma radialLines_length (t : Time) (epis : List Epicycle) :
    (radialLines t epis).length = epis.length := by
  simp [radialLines]

lemma radialLines_getElem? (t : Time) (epis : List Epicycle) (i : ℕ)
    (hi : i < epis.length) :
    (radialLines t epis)[i]? =
      some { p1 := (epis.getD i default).pos
             p2 := if i = epis.length - 1 then
                     nextEpicylePos t (epis.getD i default)
                   else (epis.getD (i + 1) default).pos } := by
  simp [radialLines, List.getElem?_map, List.getElem?_range hi]

/-! ### Evaluation of the bitwise-xor model -/

lemma jsTrunc_natCast (m : ℕ) : jsTrunc (m : ℝ) = m := by
  simp [jsTrunc]

lemma jsTrunc_two_point_seven_one : jsTrunc (2.71 : ℝ) = 2 := by
  rw [jsTrunc, if_pos (by norm_num)]
  rw [show (2.71 : ℝ) = 271 / 100 by norm_num]
  rw [Int.floor_eq_iff]
  norm_num

lemma jsXor_of_trunc (a b : ℝ) (na nb : ℕ) (hna : jsTrunc a = na)
    (hnb : jsTrunc b = nb) (h32a : na < 2 ^ 32) (h32b : nb < 2 ^ 32)
    (hxor : na ^^^ nb < 2 ^ 31) :
    jsXor a b = ((na ^^^ nb : ℕ) : ℝ) := by
  rw [jsXor, hna, hnb]
  rw [Int.emod_eq_of_lt (by positivity) (by exact_mod_cast h32a)]
  rw [Int.emod_eq_of_lt (by positivity) (by exact_mod_cast h32b)]
  simp only [Int.toNat_natCast]
  rw [if_pos hxor]

/-- The center reached after n steps from the origin is the n-term
partial sum of the rotation vectors. -/
lemma centerFrom_origin_sum (t : Time) (wf : WaveForm) (n : ℕ) :
    centerFrom t wf (createVector 0 0) 0 n =
      createVector
        (∑ o ∈ Finset.range n,
          (wf o).amplitude *
            Real.cos (-(t * (wf o).angularVelocity + (wf o).initialOffset)))
        (∑ o ∈ Finset.range n,
          (wf o).amplitude *
            Real.sin (-(t * (wf o).angularVelocity + (wf o).initialOffset))) := by
  induction n with
  | zero => simp [centerFrom, createVector]
  | succ n ih =>
      rw [centerFrom, ih]
      simp only [nextEpicylePos, createVector, Finset.sum_range_succ, Nat.zero_add]
      rw [Vec2.mk.injEq]
      constructor <;> ring

/-! ### Claim theorems -/

/-- Claim C2: for every time t, waveform generator wf and integer n with
0 ≤ n ≤ 24, the chain builder returns an ordered list of exactly n
epicycles — n, not n+1 — with octave 0 first (the i-th epicycle carries
the wave of octave i). -/
theorem c2_build_returns_exactly_n (t : Time) (wf : WaveForm) (n : ℤ)
    (h0 : 0 ≤ n) (h24 : n ≤ 24) :
    ∃ l : List Epicycle, epicycles t n wf = some l ∧ (l.length : ℤ) = n ∧
      ∀ i ei, l[i]? = some ei → ei.wave = wf i := by
  obtain ⟨m, rfl⟩ := Int.eq_ofNat_of_zero_le h0
  refine ⟨chainFrom t wf (createVector 0 0) 0 m, epicycles_natCast t wf m,
    by rw [chainFrom_length], ?_⟩
  intro i ei h
  by_cases hi : i < m
  · rw [chainFrom_getElem? t wf m i _ 0 hi] at h
    cases h
    simp
  · have hnone : (chainFrom t wf (createVector 0 0) 0 m)[i]? = none :=
      List.getElem?_eq_none (by rw [chainFrom_length]; exact Nat.le_of_not_lt hi)
    rw [hnone] at h
    cases h

/-- Witness for C2 at t = 0, n = 3, wf = squareWave. -/
theorem c2_build_returns_exactly_n_witness :
    (0 : ℤ) ≤ 3 ∧ (3 : ℤ) ≤ 24 ∧
    (∃ l : List Epicycle, epicycles 0 3 squareWave = some l ∧
      (l.length : ℤ) = 3 ∧
      ∀ i ei, l[i]? = some ei → ei.wave = squareWave i) :=
  ⟨by norm_num, by norm_num,
    c2_build_returns_exactly_n 0 squareWave 3 (by norm_num) (by norm_num)⟩

/-- Claim C3: radialLines returns exactly one segment per epicycle;
segment i starts at epicycle i's center, ends at epicycle i+1's center
when one exists, and the last segment ends at the next position of the
last epicycle (the pencil tip). -/
theorem c3_radial_segments (t : Time) (epis : List Epicycle) :
    (radialLines t epis).length = epis.length ∧
    ∀ i s, (radialLines t epis)[i]? = some s →
      (∃ ei, epis[i]? = some ei ∧ s.p1 = ei.pos) ∧
      (i + 1 < epis.length →
        ∃ ei1, epis[i + 1]? = some ei1 ∧ s.p2 = ei1.pos) ∧
      (i = epis.length - 1 →
        ∃ elast, epis[i]? = some elast ∧ s.p2 = nextEpicylePos t elast) := by
  refine ⟨radialLines_length t epis, ?_⟩
  intro i s hs
  have hi : i < epis.length := by
    by_contra hlt
    rw [List.getElem?_eq_none (by rw [radialLines_length]; omega)] at hs
    cases hs
  rw [radialLines_getElem? t epis i hi] at hs
  have hs2 := (Option.some_inj.mp hs).symm
  subst hs2
  refine ⟨⟨epis[i], List.getElem?_eq_getElem hi, by
    rw [List.getD_eq_getElem epis default hi]⟩, ?_, ?_⟩
  · intro hi1
    refine ⟨epis[i + 1], List.getElem?_eq_getElem hi1, ?_⟩
    have hne : ¬(i = epis.length - 1) := by omega
    simp only [hne, if_false]
    rw [List.getD_eq_getElem epis default hi1]
  · intro hlast
    refine ⟨epis[i], List.getElem?_eq_getElem hi, ?_⟩
    show (if i = epis.length - 1 then nextEpicylePos t (epis.getD i default)
          else (epis.getD (i + 1) default).pos) = nextEpicylePos t epis[i]
    rw [if_pos hlast, List.getD_eq_getElem epis default hi]

/-- Claim C1: for every t, wf and n ≥ 1 the built chain satisfies the
positional recurrence — epicycle 0 is centered at the origin, and each
next center is (amplitude·cos(−θ) + x, amplitude·sin(−θ) + y) with
θ = t·angularVelocity + initialOffset of the current epicycle; and
concretely build(0, 2, square) yields epicycle 0 = (center (0,0),
amplitude 4A/π, angular velocity 1, offset 0) and epicycle 1 centered
at (4A/π, 0). -/
theorem c1_positional_recurrence (t : Time) (wf : WaveForm) (n : ℕ)
    (h : 1 ≤ n) :
    (∃ l : List Epicycle, epicycles t (n : ℤ) wf = some l ∧ l.length = n ∧
      (∀ e0, l[0]? = some e0 → e0.pos = createVector 0 0) ∧
      (∀ i ei ei1, l[i]? = some ei → l[i + 1]? = some ei1 →
        ei1.pos = createVector
          (ei.wave.amplitude *
              Real.cos (-(t * ei.wave.angularVelocity + ei.wave.initialOffset)) +
            ei.pos.x)
          (ei.wave.amplitude *
              Real.sin (-(t * ei.wave.angularVelocity + ei.wave.initialOffset)) +
            ei.pos.y)) ∧
      (∀ i ei, l[i]? = some ei → ei.wave = wf i)) ∧
    (∃ e0 e1, epicycles 0 2 squareWave = some [e0, e1] ∧
      e0.pos = createVector 0 0 ∧
      e0.wave.amplitude = 4 * SCALE / Real.pi ∧
      e0.wave.angularVelocity = 1 ∧
      e0.wave.initialOffset = 0 ∧
      e1.pos = createVector (4 * SCALE / Real.pi) 0) := by
  constructor
  · refine ⟨chainFrom t wf (createVector 0 0) 0 n, epicycles_natCast t wf n,
      chainFrom_length t wf n _ 0, ?_, ?_, ?_⟩
    · intro e0 h0
      rw [chainFrom_getElem? t wf n 0 _ 0 (by omega)] at h0
      cases h0
      simp [centerFrom]
    · intro i ei ei1 hei hei1
      have hi1 : i + 1 < n := by
        by_contra hge
        have : (chainFrom t wf (createVector 0 0) 0 n)[i + 1]? = none :=
          List.getElem?_eq_none (by rw [chainFrom_length]; omega)
        rw [this] at hei1
        cases hei1
      rw [chainFrom_getElem? t wf n i _ 0 (by omega)] at hei
      rw [chainFrom_getElem? t wf n (i + 1) _ 0 hi1] at hei1
      cases hei
      cases hei1
      show centerFrom t wf (createVector 0 0) 0 (i + 1) = _
      rw [centerFrom]
      simp only [nextEpicylePos, createVector, Nat.zero_add]
    · intro i ei hei
      by_cases hi : i < n
      · rw [chainFrom_getElem? t wf n i _ 0 hi] at hei
        cases hei
        simp
      · have hnone : (chainFrom t wf (createVector 0 0) 0 n)[i]? = none :=
          List.getElem?_eq_none (by rw [chainFrom_length]; exact Nat.le_of_not_lt hi)
        rw [hnone] at hei
        cases hei
  · have h2 := epicycles_natCast 0 squareWave 2
    rw [show ((2 : ℕ) : ℤ) = (2 : ℤ) by norm_num] at h2
    refine ⟨{ pos := createVector 0 0, wave := squareWave 0 },
      { pos := nextEpicylePos 0 { pos := createVector 0 0, wave := squareWave 0 },
        wave := squareWave 1 }, ?_, rfl, ?_, ?_, rfl, ?_⟩
    · rw [h2]
      simp [chainFrom]
    · show SCALE * 4 / ((2 * ((0 : ℕ) : ℝ) + 1) * Real.pi) = 4 * SCALE / Real.pi
      norm_num [mul_comm]
    · show 2 * ((0 : ℕ) : ℝ) + 1 = 1
      norm_num
    · show nextEpicylePos 0 { pos := createVector 0 0, wave := squareWave 0 } =
        createVector (4 * SCALE / Real.pi) 0
      rw [nextEpicylePos]
      simp only [squareWave, createVector]
      norm_num [mul_comm]

/-- Witness for C1 at t = 0, wf = squareWave, n = 1. -/
theorem c1_positional_recurrence_witness :
    1 ≤ (1 : ℕ) ∧
    ((∃ l : List Epicycle, epicycles 0 ((1 : ℕ) : ℤ) squareWave = some l ∧
      l.length = 1 ∧
      (∀ e0, l[0]? = some e0 → e0.pos = createVector 0 0) ∧
      (∀ i ei ei1, l[i]? = some ei → l[i + 1]? = some ei1 →
        ei1.pos = createVector
          (ei.wave.amplitude *
              Real.cos (-(0 * ei.wave.angularVelocity + ei.wave.initialOffset)) +
            ei.pos.x)
          (ei.wave.amplitude *
              Real.sin (-(0 * ei.wave.angularVelocity + ei.wave.initialOffset)) +
            ei.pos.y)) ∧
      (∀ i ei, l[i]? = some ei → ei.wave = squareWave i)) ∧
    (∃ e0 e1, epicycles 0 2 squareWave = some [e0, e1] ∧
      e0.pos = createVector 0 0 ∧
      e0.wave.amplitude = 4 * SCALE / Real.pi ∧
      e0.wave.angularVelocity = 1 ∧
      e0.wave.initialOffset = 0 ∧
      e1.pos = createVector (4 * SCALE / Real.pi) 0)) :=
  ⟨le_refl 1, c1_positional_recurrence 0 squareWave 1 (le_refl 1)⟩

/-- Claim C9: the derived segments form a connected chain (each
segment's p2 is the next segment's p1), and the last segment's p2 — the
pencil tip — is the n-term partial Fourier sum of the rotation
vectors. -/
theorem c9_connected_chain_and_fourier_tip (t : Time) (wf : WaveForm)
    (n : ℕ) (h : 1 ≤ n) :
    ∃ l : List Epicycle, epicycles t (n : ℤ) wf = some l ∧
      (∀ i s1 s2, (radialLines t l)[i]? = some s1 →
        (radialLines t l)[i + 1]? = some s2 → s1.p2 = s2.p1) ∧
      (∃ slast, (radialLines t l)[n - 1]? = some slast ∧
        slast.p2 = createVector
          (∑ o ∈ Finset.range n,
            (wf o).amplitude *
              Real.cos (-(t * (wf o).angularVelocity + (wf o).initialOffset)))
          (∑ o ∈ Finset.range n,
            (wf o).amplitude *
              Real.sin (-(t * (wf o).angularVelocity + (wf o).initialOffset)))) := by
  set l : List Epicycle := chainFrom t wf (createVector 0 0) 0 n with hl
  have hlen : l.length = n := chainFrom_length t wf n _ 0
  refine ⟨l, epicycles_natCast t wf n, ?_, ?_⟩
  · intro i s1 s2 hs1 hs2
    have hi1 : i + 1 < n := by
      by_contra hge
      have hnone : (radialLines t l)[i + 1]? = none :=
        List.getElem?_eq_none (by rw [radialLines_length, hlen]; omega)
      rw [hnone] at hs2
      cases hs2
    rw [radialLines_getElem? t l i (by omega)] at hs1
    rw [radialLines_getElem? t l (i + 1) (by omega)] at hs2
    cases hs1
    cases hs2
    show (if i = l.length - 1 then nextEpicylePos t (l.getD i default)
          else (l.getD (i + 1) default).pos) = (l.getD (i + 1) default).pos
    rw [if_neg (by omega)]
  · have hn1 : n - 1 < n := by omega
    refine ⟨_, radialLines_getElem? t l (n - 1) (by omega), ?_⟩
    show (if n - 1 = l.length - 1 then nextEpicylePos t (l.getD (n - 1) default)
          else (l.getD (n - 1 + 1) default).pos) = _
    rw [if_pos (by omega)]
    have hget : l.getD (n - 1) default =
        { pos := centerFrom t wf (createVector 0 0) 0 (n - 1),
          wave := wf (n - 1) } := by
      have h1 : l[n - 1]? =
          some { pos := centerFrom t wf (createVector 0 0) 0 (n - 1),
                 wave := wf (0 + (n - 1)) } :=
        chainFrom_getElem? t wf n (n - 1) _ 0 hn1
      rw [List.getD_eq_getElem l default (by omega)]
      rw [List.getElem?_eq_getElem (by omega : n - 1 < l.length)] at h1
      have := Option.some_inj.mp h1
      rw [this]
      simp
    rw [hget]
    have hstep : nextEpicylePos t
        { pos := centerFrom t wf (createVector 0 0) 0 (n - 1), wave := wf (n - 1) } =
        centerFrom t wf (createVector 0 0) 0 n := by
      have hsucc : n = (n - 1) + 1 := by omega
      rw [hsucc, centerFrom]
      simp
    rw [hstep, centerFrom_origin_sum]

/-- Witness for C9 at t = 0, wf = squareWave, n = 1. -/
theorem c9_connected_chain_and_fourier_tip_witness :
    1 ≤ (1 : ℕ) ∧
    (∃ l : List Epicycle, epicycles 0 ((1 : ℕ) : ℤ) squareWave = some l ∧
      (∀ i s1 s2, (radialLines 0 l)[i]? = some s1 →
        (radialLines 0 l)[i + 1]? = some s2 → s1.p2 = s2.p1) ∧
      (∃ slast, (radialLines 0 l)[1 - 1]? = some slast ∧
        slast.p2 = createVector
          (∑ o ∈ Finset.range 1,
            (squareWave o).amplitude *
              Real.cos (-(0 * (squareWave o).angularVelocity +
                (squareWave o).initialOffset)))
          (∑ o ∈ Finset.range 1,
            (squareWave o).amplitude *
              Real.sin (-(0 * (squareWave o).angularVelocity +
                (squareWave o).initialOffset))))) :=
  ⟨le_refl 1, c9_connected_chain_and_fourier_tip 0 squareWave 1 (le_refl 1)⟩

lemma trajectoryPush_length_le {α : Type} (p : α) (buf : List α)
    (h : buf.length ≤ 512) : (trajectoryPush p buf).length ≤ 512 := by
  simp only [trajectoryPush]
  split
  · simp only [List.length_dropLast, List.length_cons]
    omega
  · simp only [List.length_cons] at *
    omega

lemma foldl_trajectoryPush_le (ps : List Vec2) :
    ∀ buf : List Vec2, buf.length ≤ 512 →
      (ps.foldl (fun b q => trajectoryPush q b) buf).length ≤ 512 := by
  induction ps with
  | nil => intro buf h; simpa using h
  | cons p rest ih =>
      intro buf h
      rw [List.foldl_cons]
      exact ih _ (trajectoryPush_length_le p buf h)

/-- Claim C4: for any sequence of pushes the trajectory buffer never
exceeds its capacity of 512; a push inserts at the front, and on a full
buffer evicts exactly the back element — the oldest still present —
leaving the remaining order unchanged. -/
theorem c4_buffer_bounded_fifo (ps : List Vec2) (p : Vec2)
    (buf : List Vec2) (h : buf.length ≤ 512) :
    (ps.foldl (fun b q => trajectoryPush q b) []).length ≤ 512 ∧
    (trajectoryPush p buf).length ≤ 512 ∧
    (buf.length < 512 → trajectoryPush p buf = p :: buf) ∧
    (buf.length = 512 → ∃ hne : buf ≠ [],
      trajectoryPush p buf = p :: buf.dropLast ∧
      buf.dropLast ++ [buf.getLast hne] = buf) := by
  refine ⟨foldl_trajectoryPush_le ps [] (by simp),
    trajectoryPush_length_le p buf h, ?_, ?_⟩
  · intro hlt
    simp only [trajectoryPush]
    rw [if_neg (by simp only [List.length_cons]; omega)]
  · intro hfull
    have hne : buf ≠ [] := by
      intro hnil
      rw [hnil] at hfull
      simp at hfull
    refine ⟨hne, ?_, List.dropLast_append_getLast hne⟩
    simp only [trajectoryPush]
    rw [if_pos (by simp only [List.length_cons]; omega)]
    rw [List.dropLast_cons_of_ne_nil hne]

/-- Witness for C4 with the empty push sequence and the empty buffer. -/
theorem c4_buffer_bounded_fifo_witness :
    ([] : List Vec2).length ≤ 512 ∧
    ((([] : List Vec2).foldl (fun b q => trajectoryPush q b) []).length ≤ 512 ∧
     (trajectoryPush (createVector 0 0) ([] : List Vec2)).length ≤ 512 ∧
     (([] : List Vec2).length < 512 →
       trajectoryPush (createVector 0 0) ([] : List Vec2) = [createVector 0 0]) ∧
     (([] : List Vec2).length = 512 → ∃ hne : ([] : List Vec2) ≠ [],
       trajectoryPush (createVector 0 0) ([] : List Vec2) =
         createVector 0 0 :: ([] : List Vec2).dropLast ∧
       ([] : List Vec2).dropLast ++ [([] : List Vec2).getLast hne] = [])) :=
  ⟨by simp, c4_buffer_bounded_fifo [] (createVector 0 0) [] (by simp)⟩

/-- Claim C8: every unrecognized waveform name resolves to the
square-wave generator; in particular resolving "unknown" gives the same
generator as resolving "square". -/
theorem c8_unknown_names_resolve_to_square (name : String)
    (h1 : name ≠ "square") (h2 : name ≠ "sawtooth") (h3 : name ≠ "sin") :
    waveForm name = squareWave ∧ waveForm "unknown" = waveForm "square" := by
  constructor
  · rw [waveForm, if_neg h1, if_neg h2, if_neg h3]
  · rw [waveForm, waveForm]
    rw [if_neg (by decide), if_neg (by decide), if_neg (by decide), if_pos rfl]

/-- Witness for C8 at name = "unknown". -/
theorem c8_unknown_names_resolve_to_square_witness :
    ("unknown" : String) ≠ "square" ∧ ("unknown" : String) ≠ "sawtooth" ∧
    ("unknown" : String) ≠ "sin" ∧
    (waveForm "unknown" = squareWave ∧ waveForm "unknown" = waveForm "square") :=
  ⟨by decide, by decide, by decide,
    c8_unknown_names_resolve_to_square "unknown" (by decide) (by decide) (by decide)⟩

/-- Claim C10: for every octave whose harmonic index k = 2(o+1) fits in
a 32-bit integer, the harmonic-overtone generator's angular velocity is
exactly 2: under the bitwise-xor semantics 2.71 truncates to 2 and
k xor (2 xor k) = 2, independent of the octave. -/
theorem c10_lol_angular_velocity_is_two (o : ℕ)
    (h : 2 * (o + 1) < 2 ^ 31) :
    (lolWave o).angularVelocity = 2 := by
  have hk : (2 * ((o : ℝ) + 1)) = ((2 * (o + 1) : ℕ) : ℝ) := by
    push_cast; ring
  show jsXor (2 * ((o : ℝ) + 1)) (jsXor 2.71 (2 * ((o : ℝ) + 1))) = 2
  rw [hk]
  have hm32 : 2 * (o + 1) < 2 ^ 32 := by omega
  have hinner : jsXor 2.71 ((2 * (o + 1) : ℕ) : ℝ) =
      ((2 ^^^ (2 * (o + 1)) : ℕ) : ℝ) :=
    jsXor_of_trunc _ _ 2 (2 * (o + 1)) jsTrunc_two_point_seven_one
      (jsTrunc_natCast _) (by norm_num) hm32
      (Nat.xor_lt_two_pow (by norm_num) h)
  rw [hinner]
  have houter : jsXor ((2 * (o + 1) : ℕ) : ℝ) ((2 ^^^ (2 * (o + 1)) : ℕ) : ℝ) =
      (((2 * (o + 1)) ^^^ (2 ^^^ (2 * (o + 1))) : ℕ) : ℝ) :=
    jsXor_of_trunc _ _ (2 * (o + 1)) (2 ^^^ (2 * (o + 1)))
      (jsTrunc_natCast _) (jsTrunc_natCast _) hm32
      (lt_of_lt_of_le (Nat.xor_lt_two_pow (by norm_num) h) (by norm_num))
      (Nat.xor_lt_two_pow h (Nat.xor_lt_two_pow (by norm_num) h))
  rw [houter]
  have hx : (2 * (o + 1)) ^^^ (2 ^^^ (2 * (o + 1))) = 2 := by
    rw [Nat.xor_comm 2 (2 * (o + 1)), ← Nat.xor_assoc, Nat.xor_self, Nat.zero_xor]
  rw [hx]
  norm_num

/-- Witness for C10 at o = 0. -/
theorem c10_lol_angular_velocity_is_two_witness :
    2 * (0 + 1) < 2 ^ 31 ∧ (lolWave 0).angularVelocity = 2 :=
  ⟨by norm_num, c10_lol_angular_velocity_is_two 0 (by norm_num)⟩

lemma jsTrunc_two : jsTrunc (2 : ℝ) = 2 := by
  have h : ((2 : ℕ) : ℝ) = (2 : ℝ) := by norm_num
  rw [← h, jsTrunc_natCast]
  rfl

lemma jsTrunc_pow_two_point_seven_one : jsTrunc ((2.71 : ℝ) ^ (2 : ℕ)) = 7 := by
  rw [jsTrunc, if_pos (by positivity)]
  rw [show ((2.71 : ℝ) ^ (2 : ℕ)) = 73441 / 10000 by norm_num]
  rw [Int.floor_eq_iff]
  norm_num

/-- Counterexample for C5: reading the angular-velocity formula as the
bitwise combination of k with the real power 2.71^k disagrees with the
generator already at octave 0, where the code yields 2 but the power
reading yields 2 xor 7 = 5. -/
theorem c5_power_reading_refuted :
    (lolWave 0).angularVelocity ≠ lolAngularVelocityPow 0 := by
  have hcode : (lolWave 0).angularVelocity = 2 := by
    have hk2 : (2 * (((0 : ℕ) : ℝ) + 1)) = ((2 : ℕ) : ℝ) := by norm_num
    show jsXor (2 * (((0 : ℕ) : ℝ) + 1))
        (jsXor 2.71 (2 * (((0 : ℕ) : ℝ) + 1))) = 2
    rw [hk2]
    rw [jsXor_of_trunc _ _ 2 2 jsTrunc_two_point_seven_one (jsTrunc_natCast 2)
      (by norm_num) (by norm_num) (by norm_num)]
    rw [jsXor_of_trunc _ _ 2 (2 ^^^ 2) (jsTrunc_natCast 2) (jsTrunc_natCast _)
      (by norm_num) (by norm_num) (by norm_num)]
    norm_num
  have hspec : lolAngularVelocityPow 0 = 5 := by
    show jsXor ((2 * (0 + 1) : ℕ) : ℝ) ((2.71 : ℝ) ^ (2 * (0 + 1) : ℕ)) = 5
    rw [show (2 * (0 + 1) : ℕ) = 2 by norm_num]
    rw [jsXor_of_trunc _ _ 2 7 (jsTrunc_natCast 2) jsTrunc_pow_two_point_seven_one
      (by norm_num) (by norm_num) (by decide)]
    rw [show (2 ^^^ 7 : ℕ) = 5 by decide]
    norm_num
  rw [hcode, hspec]
  norm_num

/-- Amended C5: the generator's angular velocity is k ^ (2.71 ^ k) with
both occurrences of ^ being the JavaScript bitwise xor (truncating to
32-bit integers); in that combination 2.71 contributes its truncation
2, so the inner operand equals 2 xor k rather than a power. The
amplitude and offset are as the claim states them. -/
theorem c5_amended_lol_wave (o : ℕ) :
    (lolWave o).amplitude = 4 * SCALE / ((2 * ((o : ℝ) + 1)) * Real.pi) ∧
    (lolWave o).initialOffset = 0 ∧
    (lolWave o).angularVelocity =
      jsXor (2 * ((o : ℝ) + 1)) (jsXor 2.71 (2 * ((o : ℝ) + 1))) ∧
    jsXor 2.71 (2 * ((o : ℝ) + 1)) = jsXor 2 (2 * ((o : ℝ) + 1)) := by
  refine ⟨?_, rfl, rfl, ?_⟩
  · show SCALE * 4 / ((2 * ((o : ℝ) + 1)) * Real.pi) = _
    ring
  · rw [jsXor, jsXor, jsTrunc_two_point_seven_one, jsTrunc_two]

/-- Counterexample for C6: at n = −1 the builder does not return the
empty chain; the recursion can never make the accumulated length equal
a negative count and so never returns (none in this embedding — at run
time a stack overflow). -/
theorem c6_negative_count_diverges : epicycles 0 (-1) squareWave = none := by
  rw [epicycles, epicyclesRecurse]
  have h1 : ¬((([] : List Epicycle).length : ℤ) = -1) := by simp
  have h2 : (-1 : ℤ) < (([] : List Epicycle).length : ℤ) := by simp
  rw [dif_neg h1, dif_pos h2]

/-- Amended C6: a zero octave count yields the empty chain and the
empty segment list without error; for strictly negative counts the
recursion never completes (modelled as none). -/
theorem c6_amended_nonpositive (t : Time) (wf : WaveForm) :
    epicycles t 0 wf = some [] ∧ radialLines t [] = [] ∧
    ∀ n : ℤ, n < 0 → epicycles t n wf = none := by
  refine ⟨?_, by simp [radialLines], ?_⟩
  · have h := epicycles_natCast t wf 0
    rw [show ((0 : ℕ) : ℤ) = (0 : ℤ) by norm_num] at h
    rw [h]
    rw [show chainFrom t wf (createVector 0 0) 0 0 = [] from rfl]
  · intro n hn
    rw [epicycles, epicyclesRecurse]
    have h1 : ¬((([] : List Epicycle).length : ℤ) = n) := by simp; omega
    have h2 : n < (([] : List Epicycle).length : ℤ) := by simp; omega
    rw [dif_neg h1, dif_pos h2]

/-- Any element of a pushed buffer is the pushed element or an element
of the previous buffer. -/
lemma trajectoryPush_mem {α : Type} (x : α) (buf : List α) (q : α)
    (hq : q ∈ trajectoryPush x buf) : q = x ∨ q ∈ buf := by
  simp only [trajectoryPush] at hq
  by_cases hlen : (x :: buf).length > 512
  · rw [if_pos hlen] at hq
    exact List.mem_cons.mp (List.dropLast_subset (x :: buf) hq)
  · rw [if_neg hlen] at hq
    exact List.mem_cons.mp hq

/-- One tagged draw step keeps every buffered point tagged with the
step's own waveform name. -/
lemma drawStepTagged_inv (s : SketchStateG (Vec2 × String)) (octaves : ℕ)
    (wf : String) (hinv : ∀ q ∈ s.trajectory, q.2 = s.wfPrevious) :
    ∀ q ∈ (drawStepTagged s octaves wf).trajectory,
      q.2 = (drawStepTagged s octaves wf).wfPrevious := by
  intro q hq
  show q.2 = wf
  simp only [drawStepTagged, drawStepG] at hq
  rcases trajectoryPush_mem _ _ q hq with h | h
  · rw [h]
  · by_cases heq : wf = s.wfPrevious
    · rw [if_pos heq] at h
      rw [hinv q h, heq]
    · rw [if_neg heq] at h
      cases h

lemma runTagged_inv (inputs : List (ℕ × String)) :
    ∀ s : SketchStateG (Vec2 × String),
      (∀ q ∈ s.trajectory, q.2 = s.wfPrevious) →
      ∀ q ∈ (runTagged s inputs).trajectory,
        q.2 = (runTagged s inputs).wfPrevious := by
  induction inputs with
  | nil => intro s h; simpa [runTagged] using h
  | cons a rest ih =>
      intro s h
      have hstep : runTagged s (a :: rest) =
          runTagged (drawStepTagged s a.1 a.2) rest := by
        simp [runTagged]
      rw [hstep]
      exact ih _ (drawStepTagged_inv s a.1 a.2 h)

/-- Claim C7: a draw step whose selected waveform name differs from the
previous step's empties the trajectory buffer before pushing that
step's pencil tip — the resulting buffer is exactly the one new
point — and consequently, along any run started with an empty buffer,
the buffer never holds points recorded under two different waveform
names at once. -/
theorem c7_trajectory_cleared_on_waveform_change
    (s : SketchStateG (Vec2 × String)) (octaves : ℕ) (wf : String)
    (hchange : wf ≠ s.wfPrevious)
    (s0 : SketchStateG (Vec2 × String)) (inputs : List (ℕ × String))
    (hempty : s0.trajectory = []) :
    (∃ p : Vec2, (drawStepTagged s octaves wf).trajectory = [(p, wf)]) ∧
    (∀ q q1, q ∈ (runTagged s0 inputs).trajectory →
      q1 ∈ (runTagged s0 inputs).trajectory → q.2 = q1.2) := by
  constructor
  · refine ⟨?_, ?_⟩
    · exact ((radialLines s.time ((epicycles s.time (octaves : ℤ)
        (waveForm wf)).getD [])).getD ((radialLines s.time
        ((epicycles s.time (octaves : ℤ) (waveForm wf)).getD [])).length - 1)
        default).p2
    · show trajectoryPush _ (if wf = s.wfPrevious then s.trajectory else []) = _
      rw [if_neg hchange]
      rw [show ∀ x : Vec2 × String, trajectoryPush x [] = [x] from
        fun x => rfl]
  · have hinv0 : ∀ q ∈ s0.trajectory, q.2 = s0.wfPrevious := by
      rw [hempty]
      intro q hq
      cases hq
    intro q q1 hq hq1
    rw [runTagged_inv inputs s0 hinv0 q hq, runTagged_inv inputs s0 hinv0 q1 hq1]

/-- Witness for C7: one step switching from "square" to "sawtooth" from
an empty-buffer state, and the empty run from the same state. -/
theorem c7_trajectory_cleared_on_waveform_change_witness :
    ("sawtooth" : String) ≠
      (SketchStateG.mk (α := Vec2 × String) 0 [] "square").wfPrevious ∧
    (SketchStateG.mk (α := Vec2 × String) 0 [] "square").trajectory = [] ∧
    ((∃ p : Vec2, (drawStepTagged
        (SketchStateG.mk (α := Vec2 × String) 0 [] "square") 2
        "sawtooth").trajectory = [(p, "sawtooth")]) ∧
     (∀ q q1, q ∈ (runTagged
        (SketchStateG.mk (α := Vec2 × String) 0 [] "square") []).trajectory →
       q1 ∈ (runTagged
        (SketchStateG.mk (α := Vec2 × String) 0 [] "square") []).trajectory →
       q.2 = q1.2)) :=
  ⟨by decide, rfl,
    c7_trajectory_cleared_on_waveform_change
      (SketchStateG.mk (α := Vec2 × String) 0 [] "square") 2 "sawtooth"
      (by decide) (SketchStateG.mk (α := Vec2 × String) 0 [] "square") [] rfl⟩

end P5Fourier
